import Mathlib

/-!
Verification of the diff-construction core of `repodiff.py`.

The program's core (`create_interleaved_diff`, lines 204-294 of
`src/repodiff.py`) consumes the output of Python's
`difflib.unified_diff(old_lines, new_lines, n=0, lineterm="")` and rebuilds an
interleaved view of the file: `+`-tagged added lines, `-`-tagged removed
lines, and space-tagged kept lines.

The embedding below is split in three layers:
* models of the Python primitives the code relies on (list indexing with
  negative wrap-around and out-of-range errors, `int()` parsing,
  `str.startswith`, `str.split`),
* a model of the external diff primitive `difflib` (SequenceMatcher with
  `isjunk=None` and `autojunk=True`, `get_matching_blocks`, `get_opcodes`,
  `get_grouped_opcodes`, `unified_diff`), translated from the documented
  CPython implementation since that code is not part of this repository,
* the faithful translation of `create_interleaved_diff`,
  `get_file_extension` and `format_prompt` from `src/repodiff.py`.

Fallible Python code is modelled with `Except Unit`: `.error ()` marks a
raised exception (IndexError / ValueError).
-/

deriving instance DecidableEq for Except

namespace RepoDiff

/-! ## Models of Python primitives -/

/-- Python list indexing `xs[i]`: negative indices wrap around once; an index
out of `[-len, len)` raises `IndexError`, modelled as `.error ()`. -/
def pyGet (xs : List String) (i : Int) : Except Unit String :=
  let n : Int := xs.length
  let j : Int := if i < 0 then i + n else i
  if 0 ≤ j ∧ j < n then .ok (xs.getD j.toNat "") else .error ()

/-- Python `s.startswith(p)`, modelled on the character lists underlying the
strings (Python strings are sequences of code points). -/
def pyStartsWith (s p : String) : Bool :=
  p.data.isPrefixOf s.data

/-- An ASCII whitespace character (the only kind appearing in diff data). -/
def isSpaceChar (c : Char) : Bool :=
  c = ' ' ∨ c = '\t' ∨ c = '\n' ∨ c = '\r'

/-- Python `s.strip()` restricted to ASCII whitespace. -/
def pyTrim (s : String) : String :=
  String.mk (((s.data.dropWhile isSpaceChar).reverse.dropWhile isSpaceChar).reverse)

/-- Python `s[n:]` (drop the first `n` code points). -/
def pyDrop (s : String) (n : Nat) : String :=
  String.mk (s.data.drop n)

/-- Python `c in s` for a single character. -/
def pyContainsChar (s : String) (c : Char) : Bool :=
  s.data.contains c

/-- Decimal value of a digit list (most significant first). -/
def digitsToNat : List Char → Nat → Nat
  | [], acc => acc
  | c :: cs, acc => digitsToNat cs (acc * 10 + (c.toNat - 48))

/-- Python `int(s)`: strips surrounding whitespace, accepts an optional sign
followed by at least one digit; anything else raises `ValueError`. -/
def pyInt (s : String) : Except Unit Int :=
  let t := pyTrim s
  let (sign, digits) :=
    if pyStartsWith t "-" then ((-1 : Int), t.data.drop 1)
    else if pyStartsWith t "+" then ((1 : Int), t.data.drop 1)
    else ((1 : Int), t.data)
  if digits ≠ [] ∧ digits.all Char.isDigit then .ok (sign * (digitsToNat digits 0 : Int))
  else .error ()

/-- The splitting loop of Python `s.split(sep)` for a non-empty separator:
non-overlapping occurrences are found left to right; `fuel` dominates the
input length so the recursion is structural. -/
def splitChars (sep : List Char) : Nat → List Char → List Char → List (List Char)
  | 0, cs, cur => [cur ++ cs]
  | fuel + 1, cs, cur =>
    match cs with
    | [] => [cur]
    | c :: rest =>
      if sep.isPrefixOf (c :: rest) then
        cur :: splitChars sep fuel ((c :: rest).drop sep.length) []
      else splitChars sep fuel rest (cur ++ [c])

/-- Python `s.split(sep)` (explicit, non-empty separator: empty pieces are
kept). -/
def pySplit (s sep : String) : List String :=
  (splitChars sep.data (s.data.length + 1) s.data []).map String.mk

/-- Python `"\n".join(lines)`. -/
def pyJoin : List String → String
  | [] => ""
  | l :: ls => ls.foldl (fun acc x => acc ++ "\n" ++ x) l

/-- Python slice `xs[i:j]` for `0 ≤ i ≤ j` (the only form the modelled code
uses): drop `i` elements, keep the next `j - i`. -/
def pySlice (xs : List String) (i j : Nat) : List String :=
  (xs.drop i).take (j - i)

/-! ## Model of the external diff primitive (`difflib`)

`difflib` is the Python standard library, not part of this repository; it is
modelled here from its documented implementation.  `SequenceMatcher` is
instantiated by `unified_diff` as `SequenceMatcher(None, a, b)`, i.e. with
`isjunk=None` (so the junk set `bjunk` is empty) and `autojunk=True` (so for
`len(b) >= 200` the elements occurring more than `len(b)//100 + 1` times are
purged from the index `b2j`). -/

/-- The ascending list of indices `j < b.length` with `b[j] = x` (the entry
the dict `b2j` holds for `x` before the autojunk purge). -/
def occIdxs (b : List String) (x : String) : List Nat :=
  (List.range b.length).filter (fun j => b.getD j "" = x)

/-- The purged index `SequenceMatcher.b2j.get(x, [])`: for
`len(b) >= 200`, elements occurring more than `len(b)//100 + 1` times are
removed from the dict. -/
def b2jGet (b : List String) (x : String) : List Nat :=
  if 200 ≤ b.length ∧ b.length / 100 + 1 < (occIdxs b x).length then [] else occIdxs b x

/-- One row of `find_longest_match`'s main loop: walk the occurrence list
`js` of `a[i]` in `b` (ascending), skipping `j < blo` and breaking at
`j ≥ bhi`; `j2len` maps `j` to the length of the longest common chain ending
at `(i-1, j)` (a total function, mirroring `dict.get(·, 0)`), `newj2len` is
the row being built, `best = (besti, bestj, bestsize)`. -/
def flmRow (i blo bhi : Nat) (j2len : Nat → Nat) :
    List Nat → (Nat → Nat) → (Nat × Nat × Nat) → ((Nat → Nat) × (Nat × Nat × Nat))
  | [], newj2len, best => (newj2len, best)
  | j :: js, newj2len, best =>
    if j < blo then flmRow i blo bhi j2len js newj2len best
    else if bhi ≤ j then (newj2len, best)
    else
      let k := (if j = 0 then 0 else j2len (j - 1)) + 1
      let newj2len' := fun j' => if j' = j then k else newj2len j'
      let best' := if best.2.2 < k then (i + 1 - k, j + 1 - k, k) else best
      flmRow i blo bhi j2len js newj2len' best'

/-- The main double loop of `find_longest_match`, iterating `i` over
`range(alo, ahi)` (`cnt` counts the remaining rows). -/
def flmRounds (a b : List String) (blo bhi : Nat) :
    Nat → Nat → (Nat → Nat) → (Nat × Nat × Nat) → (Nat × Nat × Nat)
  | _, 0, _, best => best
  | i, cnt + 1, j2len, best =>
    let (newj2len, best') := flmRow i blo bhi j2len (b2jGet b (a.getD i "")) (fun _ => 0) best
    flmRounds a b blo bhi (i + 1) cnt newj2len best'

/-- The backward extension loop of `find_longest_match` (with `bjunk = ∅`):
`while besti > alo and bestj > blo and a[besti-1] == b[bestj-1]`.  The
counter `cnt` starts at `besti`, an upper bound on the possible steps. -/
def flmExtendBack (a b : List String) (alo blo : Nat) :
    Nat → Nat → Nat → Nat → (Nat × Nat × Nat)
  | 0, besti, bestj, bestsize => (besti, bestj, bestsize)
  | cnt + 1, besti, bestj, bestsize =>
    if alo < besti ∧ blo < bestj ∧ a.getD (besti - 1) "" = b.getD (bestj - 1) "" then
      flmExtendBack a b alo blo cnt (besti - 1) (bestj - 1) (bestsize + 1)
    else (besti, bestj, bestsize)

/-- The forward extension loop of `find_longest_match` (with `bjunk = ∅`):
`while besti+bestsize < ahi and bestj+bestsize < bhi and a[besti+bestsize] ==
b[bestj+bestsize]`.  The counter starts at `ahi - (besti + bestsize)`. -/
def flmExtendFwd (a b : List String) (ahi bhi : Nat) (besti bestj : Nat) :
    Nat → Nat → Nat
  | 0, bestsize => bestsize
  | cnt + 1, bestsize =>
    if besti + bestsize < ahi ∧ bestj + bestsize < bhi ∧
        a.getD (besti + bestsize) "" = b.getD (bestj + bestsize) "" then
      flmExtendFwd a b ahi bhi besti bestj cnt (bestsize + 1)
    else bestsize

/-- The matcher `SequenceMatcher.find_longest_match(alo, ahi, blo, bhi)`.  The two junk
extension loops of the original are omitted: with `isjunk=None` the junk set
`bjunk` is empty, so their conditions are always false. -/
def findLongestMatch (a b : List String) (alo ahi blo bhi : Nat) : Nat × Nat × Nat :=
  let best := flmRounds a b blo bhi alo (ahi - alo) (fun _ => 0) (alo, blo, 0)
  let back := flmExtendBack a b alo blo best.1 best.1 best.2.1 best.2.2
  let size := flmExtendFwd a b ahi bhi back.1 back.2.1 (ahi - (back.1 + back.2.2)) back.2.2
  (back.1, back.2.1, size)

/-- The worklist loop of `get_matching_blocks` (the queue is popped from the
head; matched sub-ranges are pushed back).  `fuel` bounds the number of
iterations; each pop either drops its item or splits it into two strictly
smaller ranges, so `(la + lb + 2)^2` steps always suffice. -/
def gmbLoop (a b : List String) :
    Nat → List (Nat × Nat × Nat × Nat) → List (Nat × Nat × Nat) → List (Nat × Nat × Nat)
  | _, [], acc => acc
  | 0, _ :: _, acc => acc
  | fuel + 1, (alo, ahi, blo, bhi) :: queue, acc =>
    let m := findLongestMatch a b alo ahi blo bhi
    let i := m.1
    let j := m.2.1
    let k := m.2.2
    if k ≠ 0 then
      let q2 := if i + k < ahi ∧ j + k < bhi then [(i + k, ahi, j + k, bhi)] else []
      let q1 := if alo < i ∧ blo < j then [(alo, i, blo, j)] else []
      gmbLoop a b fuel (q2 ++ q1 ++ queue) ((i, j, k) :: acc)
    else gmbLoop a b fuel queue acc

/-- Lexicographic comparison of matching-block triples, as Python's tuple
sort uses. -/
def lexLe (x y : Nat × Nat × Nat) : Bool :=
  decide (x.1 < y.1 ∨ (x.1 = y.1 ∧ (x.2.1 < y.2.1 ∨ (x.2.1 = y.2.1 ∧ x.2.2 ≤ y.2.2))))

/-- Insert into a `lexLe`-sorted list (stable). -/
def insertLex (x : Nat × Nat × Nat) : List (Nat × Nat × Nat) → List (Nat × Nat × Nat)
  | [] => [x]
  | y :: ys => if lexLe y x then y :: insertLex x ys else x :: y :: ys

/-- Stable sort by `lexLe`, modelling `matching_blocks.sort()`. -/
def sortLex : List (Nat × Nat × Nat) → List (Nat × Nat × Nat)
  | [] => []
  | x :: xs => insertLex x (sortLex xs)

/-- The adjacent-block merging pass of `get_matching_blocks`, with the
running block `(i1, j1, k1)` and accumulated output. -/
def mergeAdjacent : List (Nat × Nat × Nat) → (Nat × Nat × Nat) →
    List (Nat × Nat × Nat) → List (Nat × Nat × Nat)
  | [], (i1, j1, k1), acc => if k1 ≠ 0 then acc ++ [(i1, j1, k1)] else acc
  | (i2, j2, k2) :: bs, (i1, j1, k1), acc =>
    if i1 + k1 = i2 ∧ j1 + k1 = j2 then mergeAdjacent bs (i1, j1, k1 + k2) acc
    else if k1 ≠ 0 then mergeAdjacent bs (i2, j2, k2) (acc ++ [(i1, j1, k1)])
    else mergeAdjacent bs (i2, j2, k2) acc

/-- The blocks of `SequenceMatcher.get_matching_blocks()`: worklist recursion, sort,
adjacent merge, and the `(la, lb, 0)` sentinel. -/
def getMatchingBlocks (a b : List String) : List (Nat × Nat × Nat) :=
  let la := a.length
  let lb := b.length
  let raw := gmbLoop a b ((la + lb + 2) * (la + lb + 2)) [(0, la, 0, lb)] []
  mergeAdjacent (sortLex raw) (0, 0, 0) [] ++ [(la, lb, 0)]

/-- An opcode `(tag, i1, i2, j1, j2)` with the Python string tag. -/
abbrev Opcode := String × Nat × Nat × Nat × Nat

/-- The loop body of `SequenceMatcher.get_opcodes()`. -/
def opcodesLoop : List (Nat × Nat × Nat) → Nat → Nat → List Opcode → List Opcode
  | [], _, _, acc => acc
  | (ai, bj, size) :: bs, i, j, acc =>
    let tag : String :=
      if i < ai ∧ j < bj then "replace"
      else if i < ai then "delete"
      else if j < bj then "insert"
      else ""
    let acc := if tag ≠ "" then acc ++ [(tag, i, ai, j, bj)] else acc
    let acc := if size ≠ 0 then acc ++ [("equal", ai, ai + size, bj, bj + size)] else acc
    opcodesLoop bs (ai + size) (bj + size) acc

/-- The opcodes of `SequenceMatcher.get_opcodes()`. -/
def getOpcodes (a b : List String) : List Opcode :=
  opcodesLoop (getMatchingBlocks a b) 0 0 []

/-- The grouping loop of `get_grouped_opcodes`: splits at `equal` opcodes
longer than `n + n`, truncating the context kept on each side to `n`. -/
def groupSplit (n : Nat) : List Opcode → List Opcode → List (List Opcode) → List (List Opcode)
  | [], group, groups =>
    if group ≠ [] ∧ ¬(group.length = 1 ∧ (group.headD ("", 0, 0, 0, 0)).1 = "equal") then
      groups ++ [group]
    else groups
  | (tag, i1, i2, j1, j2) :: codes, group, groups =>
    if tag = "equal" ∧ n + n < i2 - i1 then
      let groups := groups ++ [group ++ [(tag, i1, min i2 (i1 + n), j1, min j2 (j1 + n))]]
      groupSplit n codes [(tag, max i1 (i2 - n), i2, max j1 (j2 - n), j2)] groups
    else groupSplit n codes (group ++ [(tag, i1, i2, j1, j2)]) groups

/-- The groups of `SequenceMatcher.get_grouped_opcodes(n)`: pad empty opcode lists with a
dummy, shrink leading/trailing `equal` opcodes to `n` context lines, then
split into groups. -/
def groupedOpcodes (a b : List String) (n : Nat) : List (List Opcode) :=
  let codes := getOpcodes a b
  let codes := if codes = [] then [("equal", 0, 1, 0, 1)] else codes
  let codes :=
    match codes with
    | (tag, i1, i2, j1, j2) :: rest =>
      if tag = "equal" then (tag, max i1 (i2 - n), i2, max j1 (j2 - n), j2) :: rest
      else codes
    | [] => codes
  let codes :=
    match codes.getLast? with
    | some (tag, i1, i2, j1, j2) =>
      if tag = "equal" then
        codes.dropLast ++ [(tag, i1, min i2 (i1 + n), j1, min j2 (j1 + n))]
      else codes
    | none => codes
  groupSplit n codes [] []

/-- Range formatting, `difflib._format_range_unified(start, stop)`: 1-indexed `start,length`,
where a length of 1 omits the length and an empty range is reported at the
line just before it. -/
def formatRangeUnified (start stop : Nat) : String :=
  let beginning := start + 1
  let length := stop - start
  if length = 1 then toString beginning
  else if length = 0 then toString (beginning - 1) ++ ",0"
  else toString beginning ++ "," ++ toString length

/-- The body lines a single opcode contributes to a unified-diff hunk. -/
def opcodeLines (a b : List String) : Opcode → List String
  | (tag, i1, i2, j1, j2) =>
    if tag = "equal" then (pySlice a i1 i2).map (fun l => " " ++ l)
    else
      (if tag = "replace" ∨ tag = "delete" then (pySlice a i1 i2).map (fun l => "-" ++ l) else [])
        ++
      (if tag = "replace" ∨ tag = "insert" then (pySlice b j1 j2).map (fun l => "+" ++ l) else [])

/-- The `@@` header line plus body of one hunk group. -/
def hunkLines (a b : List String) (g : List Opcode) : List String :=
  let first := g.headD ("", 0, 0, 0, 0)
  let last := g.getLastD ("", 0, 0, 0, 0)
  let header := "@@ -" ++ formatRangeUnified first.2.1 last.2.2.1 ++ " +"
      ++ formatRangeUnified first.2.2.2.1 last.2.2.2.2 ++ " @@"
  header :: (g.map (opcodeLines a b)).flatten

/-- The stream of `difflib.unified_diff(a, b, n=0, lineterm="")` with empty file labels, as
called by `create_interleaved_diff`: the `--- ` / `+++ ` headers are emitted
once before the first group. -/
def unifiedDiff (a b : List String) : List String :=
  let groups := groupedOpcodes a b 0
  if groups = [] then []
  else "--- " :: "+++ " :: (groups.map (hunkLines a b)).flatten

/-! ## The interleaver: `create_interleaved_diff` (src/repodiff.py, 204-294)

The function's diff computation depends only on the two line sequences
(`get_file_diff_data`'s `raw_diff` is never used by the interleaving logic),
so the embedding takes `old_lines` and `new_lines` directly, exactly the
values the source obtains by splitting the two file revisions into lines. -/

/-- Parsing one range field of an `@@` header: `"-1,0"`-style when it
contains a comma (`int(info.split(",")[0][1:])`, `int(info.split(",")[1])`),
otherwise `int(info[1:])` with an implicit count of 1. -/
def parseRangeInfo (info : String) : Except Unit (Int × Int) :=
  if pyContainsChar info ',' then
    match pyInt (pyDrop ((pySplit info ",").getD 0 "") 1) with
    | .error e => .error e
    | .ok start =>
      match pyInt ((pySplit info ",").getD 1 "") with
      | .error e => .error e
      | .ok count => .ok (start, count)
  else
    match pyInt (pyDrop info 1) with
    | .error e => .error e
    | .ok start => .ok (start, 1)

/-- The cursor state of the interleaving loop: the accumulated `result`
lines and the zero-based cursors `old_line_num` / `new_line_num`. -/
structure ILState where
  result : List String
  oldPos : Int
  newPos : Int
deriving Repr, DecidableEq

/-- The kept-context loop run on each `@@` header:
`while old_line_num < old_start - 1 and new_line_num < new_start - 1:
result.append(" " + old_lines[old_line_num]); advance both cursors`.
`cnt` starts at `(oldTarget - oldPos).toNat`, the exact number of steps after
which the first conjunct fails, so the loop semantics is unchanged. -/
def keptLoop (old_lines : List String) (oldTarget newTarget : Int) :
    Nat → Int → Int → List String → Except Unit ILState
  | 0, oldPos, newPos, acc => .ok ⟨acc, oldPos, newPos⟩
  | cnt + 1, oldPos, newPos, acc =>
    if oldPos < oldTarget ∧ newPos < newTarget then
      match pyGet old_lines oldPos with
      | .error e => .error e
      | .ok s =>
        keptLoop old_lines oldTarget newTarget cnt (oldPos + 1) (newPos + 1) (acc ++ [" " ++ s])
    else .ok ⟨acc, oldPos, newPos⟩

/-- The main parsing loop over the diff lines (lines 237-287 of the source):
`@@` headers update the cursors (kept-context emission, then
resynchronization to the declared starts); `-`/`+` lines are appended
verbatim; any other line is treated as an unchanged line. -/
def interleaveLoop (old_lines : List String) : List String → ILState → Except Unit ILState
  | [], st => .ok st
  | line :: rest, st =>
    if pyStartsWith line "@@" then
      let parts := pySplit line " "
      if 3 ≤ parts.length then
        match parseRangeInfo (parts.getD 1 ""), parseRangeInfo (parts.getD 2 "") with
        | .error e, _ => .error e
        | .ok _, .error e => .error e
        | .ok o, .ok n =>
          match keptLoop old_lines (o.1 - 1) (n.1 - 1)
              (o.1 - 1 - st.oldPos).toNat st.oldPos st.newPos st.result with
          | .error e => .error e
          | .ok st' => interleaveLoop old_lines rest ⟨st'.result, o.1 - 1, n.1 - 1⟩
      else interleaveLoop old_lines rest st
    else if pyStartsWith line "-" then
      interleaveLoop old_lines rest ⟨st.result ++ [line], st.oldPos + 1, st.newPos⟩
    else if pyStartsWith line "+" then
      interleaveLoop old_lines rest ⟨st.result ++ [line], st.oldPos, st.newPos + 1⟩
    else
      interleaveLoop old_lines rest
        ⟨st.result ++ [" " ++ pyDrop line 1], st.oldPos + 1, st.newPos + 1⟩

/-- The trailing loop (lines 290-292): `while new_line_num < len(new_lines):
result.append(" " + new_lines[new_line_num]); new_line_num += 1`.  `cnt`
starts at `(len - newPos).toNat`, the exact number of iterations. -/
def tailLoop (new_lines : List String) : Nat → Int → List String → Except Unit (List String)
  | 0, _, acc => .ok acc
  | cnt + 1, newPos, acc =>
    if newPos < (new_lines.length : Int) then
      match pyGet new_lines newPos with
      | .error e => .error e
      | .ok s => tailLoop new_lines cnt (newPos + 1) (acc ++ [" " ++ s])
    else .ok acc

/-- The interleaving of a given hunk stream (diff lines after the header
skip) with the two line sequences: the parsing loop followed by the trailing
kept-line emission. -/
def interleaveHunks (diff_lines old_lines new_lines : List String) : Except Unit (List String) :=
  match interleaveLoop old_lines diff_lines ⟨[], 0, 0⟩ with
  | .error e => .error e
  | .ok st => tailLoop new_lines ((new_lines.length : Int) - st.newPos).toNat st.newPos st.result

/-- The function `create_interleaved_diff`, at the level of the `result` line list (the
source's `result` list, or the `["+" + line ...]` / `["-" + line ...]`
comprehensions of the two degenerate branches, before `"\n".join`). -/
def createInterleavedDiffLines (old_lines new_lines : List String) : Except Unit (List String) :=
  if old_lines = [] ∧ new_lines ≠ [] then
    .ok (new_lines.map (fun line => "+" ++ line))
  else if old_lines ≠ [] ∧ new_lines = [] then
    .ok (old_lines.map (fun line => "-" ++ line))
  else
    let diff_lines := unifiedDiff old_lines new_lines
    let diff_lines := if 2 < diff_lines.length then diff_lines.drop 2 else diff_lines
    interleaveHunks diff_lines old_lines new_lines

/-- The string `create_interleaved_diff(file_path)` returns. -/
def createInterleavedDiff (old_lines new_lines : List String) : Except Unit String :=
  (createInterleavedDiffLines old_lines new_lines).map pyJoin

/-! ## `get_file_extension` (src/repodiff.py, 316-351) -/

/-- Python `s.rfind(c)` on the character list: the last index holding `c`, or -1. -/
def lastIndexOfAux (c : Char) : List Char → Int → Int → Int
  | [], _, best => best
  | x :: xs, i, best => lastIndexOfAux c xs (i + 1) (if x = c then i else best)

/-- Python `p.rfind(c)`. -/
def lastIndexOf (cs : List Char) (c : Char) : Int :=
  lastIndexOfAux c cs 0 (-1)

/-- Python `os.path.splitext(p)[1]` on POSIX: the suffix from the last dot, unless
that dot lies at the start of the basename (leading dots of the file name do
not begin an extension). -/
def pySplitextExt (p : String) : String :=
  let cs := p.data
  let sepIdx := lastIndexOf cs '/'
  let dotIdx := lastIndexOf cs '.'
  if sepIdx < dotIdx ∧
      ((cs.drop (sepIdx + 1).toNat).take (dotIdx - (sepIdx + 1)).toNat).any (fun c => c ≠ '.') then
    String.mk (cs.drop dotIdx.toNat)
  else ""

/-- Python `s.lstrip('.')`: remove every leading dot. -/
def pyLstripDot (s : String) : String :=
  String.mk (s.data.dropWhile (fun c => c = '.'))

/-- The extension string the source computes:
`os.path.splitext(file_path)[1].lstrip('.')`. -/
def extOfPath (p : String) : String :=
  pyLstripDot (pySplitextExt p)

/-- Python `s.lower()` (ASCII case folding, all the extension map needs). -/
def pyLower (s : String) : String :=
  String.mk (s.data.map Char.toLower)

/-- The `ext_map` dictionary of `get_file_extension`, in source order. -/
def extMap : List (String × String) :=
  [("js", "javascript"), ("ts", "typescript"), ("jsx", "jsx"), ("tsx", "tsx"),
   ("md", "markdown"), ("py", "python"), ("rb", "ruby"), ("go", "go"),
   ("c", "c"), ("cpp", "cpp"), ("h", "cpp"), ("hpp", "cpp"),
   ("cs", "csharp"), ("java", "java"), ("php", "php"), ("sh", "bash"),
   ("yml", "yaml"), ("yaml", "yaml"), ("json", "json"), ("css", "css"),
   ("html", "html"), ("xml", "xml"), ("sql", "sql"), ("rs", "rust"),
   ("kt", "kotlin"), ("swift", "swift"), ("dart", "dart")]

/-- The function `get_file_extension(file_path)`:
`ext_map.get(ext.lower(), ext) or "text"` (the `or` replaces a falsy, i.e.
empty, result by `"text"`). -/
def getFileExtension (p : String) : String :=
  let ext := extOfPath p
  let r := (extMap.lookup (pyLower ext)).getD ext
  if r = "" then "text" else r

/-! ## `format_prompt` (src/repodiff.py, 353-407)

The surrounding I/O is abstracted: `readme` stands for
`get_readme_content()` and the oracle `fileLines` maps a path to the
old/new line sequences `get_file_diff_data` would produce for it.  Python's
sets of renamed and binary paths are passed as lists (their iteration order
is unspecified in the source). -/

/-- The `parts` a single selected file contributes inside the
`for file_path in selected_files` loop: nothing for binary files, nothing
when the interleaved diff is empty, otherwise a heading plus a fenced code
block. -/
def filePart (fileLines : String → List String × List String)
    (binaryList : List String) (p : String) : Except Unit (List String) :=
  if binaryList.contains p then .ok []
  else
    match createInterleavedDiff (fileLines p).1 (fileLines p).2 with
    | .error e => .error e
    | .ok d =>
      if d = "" then .ok []
      else .ok ["## " ++ p ++ "\n", "```" ++ getFileExtension p, d, "```\n"]

/-- The per-file loop of `format_prompt`, in selection order. -/
def filesLoop (fileLines : String → List String × List String)
    (binaryList : List String) : List String → Except Unit (List String)
  | [] => .ok []
  | p :: ps =>
    match filePart fileLines binaryList p with
    | .error e => .error e
    | .ok h =>
      match filesLoop fileLines binaryList ps with
      | .error e => .error e
      | .ok t => .ok (h ++ t)

/-- The `relevant_renames` loop: each entry is split on `" -> "` and the
unpacking `old_path, new_path = parts` raises unless there are exactly two
parts; entries whose new path is selected are kept. -/
def relevantRenames (selected : List String) : List String → Except Unit (List String)
  | [] => .ok []
  | r :: rs =>
    let ps := pySplit r " -> "
    if ps.length = 2 then
      match relevantRenames selected rs with
      | .error e => .error e
      | .ok t => .ok ((if selected.contains (ps.getD 1 "") then [r] else []) ++ t)
    else .error ()

/-- The function `format_prompt(selected_files, renamed_files, binary_files)`. -/
def formatPrompt (readme : Option String)
    (fileLines : String → List String × List String)
    (selected renamedList binaryList : List String) : Except Unit String :=
  let readmeParts :=
    match readme with
    | some r => if r = "" then [] else ["# Repository README\n", r, "\n---\n"]
    | none => []
  match filesLoop fileLines binaryList selected with
  | .error e => .error e
  | .ok fp =>
    match relevantRenames selected renamedList with
    | .error e => .error e
    | .ok rel =>
      let renParts :=
        if rel = [] then []
        else "# File Path Changes\n" :: rel.map (fun r => "* " ++ r ++ "\n")
      let selBin := selected.filter (fun f => binaryList.contains f)
      let binParts :=
        if selBin = [] then []
        else "# Binary Files (Skipped)\n" :: selBin.map (fun f => "* " ++ f ++ "\n")
      .ok (pyJoin (readmeParts ++ ["# Changed Files\n"] ++ fp ++ renParts ++ binParts))

/-! ## Projections used to state the round-trip claims

The source represents an interleaved line as its rendered form: the tag is
the leading character (`+` added, `-` removed, space kept) and the text is
the rest.  The round-trip properties of the specification concatenate the
texts of the Kept+Removed (resp. Kept+Added) lines in order. -/

/-- Texts of the lines tagged Kept or Removed, in order. -/
def keptRemovedTexts (lines : List String) : List String :=
  (lines.filter (fun l => pyStartsWith l " " || pyStartsWith l "-")).map (fun l => pyDrop l 1)

/-- Texts of the lines tagged Kept or Added, in order. -/
def keptAddedTexts (lines : List String) : List String :=
  (lines.filter (fun l => pyStartsWith l " " || pyStartsWith l "+")).map (fun l => pyDrop l 1)

/-! ## Auxiliary definitions for the proofs -/

/-- Soundness condition on one line of a hunk stream, used to delimit when
the interleaver cannot raise: only `@@` header lines are constrained — when
such a line has at least three space-separated parts, both range fields must
parse and the declared starts must satisfy
`1 ≤ old_start ≤ len(old_lines) + 1` and `1 ≤ new_start`.  Every other line
(in particular any hunk body line, whether or not it contains spaces)
satisfies the condition trivially. -/
def headerBoundsOk (old_lines : List String) (line : String) : Bool :=
  if pyStartsWith line "@@" then
    let parts := pySplit line " "
    if 3 ≤ parts.length then
      match parseRangeInfo (parts.getD 1 ""), parseRangeInfo (parts.getD 2 "") with
      | .ok o, .ok n =>
        decide (1 ≤ o.1 ∧ o.1 ≤ (old_lines.length : Int) + 1 ∧ 1 ≤ n.1)
      | _, _ => false
    else true
  else true

/-- Auxiliary for the identity theorem: the length of the contiguous run of
lines ending at index `j` whose values survive the autojunk purge. -/
def runEnd (a : List String) : Nat → Nat
  | 0 => if b2jGet a (a.getD 0 "") = [] then 0 else 1
  | j + 1 => if b2jGet a (a.getD (j + 1) "") = [] then 0 else runEnd a j + 1

/-- Auxiliary for the identity theorem: the bound satisfied by every value
of the `j2len` row entering round `i` (0 for the first round, the run length
ending at `i - 1` afterwards). -/
def rowBound (a : List String) : Nat → Nat
  | 0 => 0
  | i + 1 => runEnd a i

/-- Auxiliary for the identity theorem: the invariant carried through the
rounds of `find_longest_match` when both sequences are `a` and the whole
ranges are matched: the previous `j2len` row is bounded by the run length at
its column and by the run length of the previous row, the diagonal entry of
the previous row attains its run length, and the best triple is diagonal, in
range, and dominates every run seen so far. -/
def flmInv (a : List String) (i : Nat) (j2len : Nat → Nat)
    (best : Nat × Nat × Nat) : Prop :=
  (∀ j, j2len j ≤ runEnd a j) ∧
  (∀ j, j2len j ≤ rowBound a i) ∧
  (∀ i', i = i' + 1 → j2len i' = runEnd a i') ∧
  ∃ d bs, best = (d, d, bs) ∧ d + bs ≤ a.length ∧ ∀ i' < i, runEnd a i' ≤ bs

/-- A line in the tagged wire format: a one-character marker (`+` added,
`-` removed, space kept) followed by the line's text. -/
def taggedLine (l : String) : Prop :=
  ∃ t, l = "+" ++ t ∨ l = "-" ++ t ∨ l = " " ++ t

/-!
# Theorems

Each claim `C1`-`C10` of the specification is settled below against the
embedding above.
-/

/-- C1 (evaluation at the failing input): for `old = ["a","b","c"]`,
`new = ["a","c"]` — a pure one-line deletion — the code emits the removed
line before the kept context (`difflib` reports the empty new-side range at
the line just before it, so the guard of the kept-context loop stops
immediately), and the concatenated Kept+Removed texts are
`["b","a","c"]`, not the old sequence `["a","b","c"]` required by the
round-trip (old) property. -/
theorem c1_roundTripOld_eval :
    createInterleavedDiffLines ["a", "b", "c"] ["a", "c"] = .ok ["-b", " a", " c"] ∧
    keptRemovedTexts ["-b", " a", " c"] = ["b", "a", "c"] ∧
    keptRemovedTexts ["-b", " a", " c"] ≠ ["a", "b", "c"] := by
  refine ⟨by decide, by decide, by decide⟩

/-- C2 (evaluation at the failing input): for `old = ["p","q"]`,
`new = ["p","x","q"]` — a pure one-line insertion — the kept line `p` is
dropped (`difflib` reports the empty old-side range at the line just before
it, so the guard of the kept-context loop stops immediately), and the
concatenated Kept+Added texts are `["x","q"]`, not the new sequence
`["p","x","q"]` required by the round-trip (new) property. -/
theorem c2_roundTripNew_eval :
    createInterleavedDiffLines ["p", "q"] ["p", "x", "q"] = .ok ["+x", " q"] ∧
    keptAddedTexts ["+x", " q"] = ["x", "q"] ∧
    keptAddedTexts ["+x", " q"] ≠ ["p", "x", "q"] := by
  refine ⟨by decide, by decide, by decide⟩

/-- C3 (evaluation at the claimed input): for `old = ["a","c"]`,
`new = ["a","b","c"]` the code produces `[Added(b), Kept(c)]`, not the
claimed `[Kept(a), Added(b), Kept(c)]`: the leading kept line `a` is lost
because the hunk header `@@ -1,0 +2 @@` declares `old_start = 1` for the
empty old-side range, so `old_line_num < old_start - 1` fails at once. -/
theorem c3_pureInsertion_eval :
    createInterleavedDiffLines ["a", "c"] ["a", "b", "c"] = .ok ["+b", " c"] ∧
    (["+b", " c"] : List String) ≠ [" a", "+b", " c"] := by
  refine ⟨by decide, by decide⟩

/-- C4: for `old = ["1","2","3","4","5"]`, `new = ["1","X","3","4","Y"]`
(two separate single-line replacements) the interleaver produces exactly
`[Kept(1), Removed(2), Added(X), Kept(3), Kept(4), Removed(5), Added(Y)]`:
the kept stretch between the hunks is reconstructed and the cursors carry
correctly across hunks. -/
theorem c4_multiHunk :
    createInterleavedDiffLines ["1", "2", "3", "4", "5"] ["1", "X", "3", "4", "Y"] =
      .ok [" 1", "-2", "+X", " 3", " 4", "-5", "+Y"] := by decide

/-- C5: an empty old sequence with a non-empty new sequence short-circuits
to every new line tagged Added, and symmetrically a non-empty old sequence
with an empty new sequence short-circuits to every old line tagged Removed —
in both cases before the diff/interleave algorithm is consulted. -/
theorem c5_wholeFileBypass (old_lines new_lines : List String) :
    (old_lines = [] → new_lines ≠ [] →
      createInterleavedDiffLines old_lines new_lines =
        .ok (new_lines.map (fun line => "+" ++ line))) ∧
    (old_lines ≠ [] → new_lines = [] →
      createInterleavedDiffLines old_lines new_lines =
        .ok (old_lines.map (fun line => "-" ++ line))) := by
  constructor
  · intro h1 h2
    simp [createInterleavedDiffLines, h1, h2]
  · intro h1 h2
    simp [createInterleavedDiffLines, h1, h2]

/-- Closed witness for `c5_wholeFileBypass` at `old = []`, `new = [L1, L2]`
and at `old = [L1, L2]`, `new = []`. -/
theorem c5_wholeFileBypass_witness :
    createInterleavedDiffLines [] ["L1", "L2"] = .ok ["+L1", "+L2"] ∧
    createInterleavedDiffLines ["L1", "L2"] [] = .ok ["-L1", "-L2"] :=
  ⟨(c5_wholeFileBypass [] ["L1", "L2"]).1 rfl (by decide),
   (c5_wholeFileBypass ["L1", "L2"] []).2 (by decide) rfl⟩

/-- C7 (counterexample): the interleaving loop does crash on malformed hunk
metadata — a header whose declared starts exceed the sequence lengths makes
the kept-context loop index `old_lines` out of range (`IndexError`),
contradicting the claim that the operation never raises for every hunk
stream. -/
theorem c7_malformedHeader_crash :
    interleaveHunks ["@@ -9 +9 @@"] ["a"] ["a"] = .error () := by decide

/-- In an association list with no empty value, a successful lookup never
returns the empty string. -/
theorem lookup_val_ne_empty (m : List (String × String))
    (hm : ∀ q ∈ m, q.2 ≠ "") (k v : String) (h : m.lookup k = some v) : v ≠ "" := by
  induction m with
  | nil => simp [List.lookup] at h
  | cons a m ih =>
    obtain ⟨ka, va⟩ := a
    rw [List.lookup] at h
    by_cases hk : k == ka
    · simp [hk] at h
      exact h ▸ hm (ka, va) (by simp)
    · simp [hk] at h
      exact ih (fun q hq => hm q (List.mem_cons_of_mem _ hq)) h

/-- C9: the language tag `get_file_extension` returns for a path is the
mapped language name when the (lower-cased) extension is a key of
`ext_map`; otherwise the literal extension string when it is non-empty, and
`"text"` when it is empty. -/
theorem c9_languageTag (p : String) :
    getFileExtension p =
      match extMap.lookup (pyLower (extOfPath p)) with
      | some v => v
      | none => if extOfPath p = "" then "text" else extOfPath p := by
  unfold getFileExtension
  cases h : extMap.lookup (pyLower (extOfPath p)) with
  | some v =>
    have hv : v ≠ "" := lookup_val_ne_empty extMap (by decide) _ v h
    simp [h, hv]
  | none => simp [h]

/-- A file whose old and new sequences are both empty contributes no parts:
neither degenerate branch of `create_interleaved_diff` fires, the diff is
empty, and the `if not interleaved_diff: continue` guard skips the file. -/
theorem filePart_skip (fileLines : String → List String × List String)
    (binaryList : List String) (p : String)
    (h1 : fileLines p = ([], [])) (h2 : binaryList.contains p = false) :
    filePart fileLines binaryList p = .ok [] := by
  have hd : createInterleavedDiff ([] : List String) [] = .ok "" := by decide
  simp [filePart, h1, h2, hd]

/-- Unfolding equation for `filesLoop` on a non-empty selection. -/
theorem filesLoop_cons (fileLines : String → List String × List String)
    (binaryList : List String) (p : String) (ps : List String) :
    filesLoop fileLines binaryList (p :: ps) =
      match filePart fileLines binaryList p with
      | .error e => .error e
      | .ok h =>
        match filesLoop fileLines binaryList ps with
        | .error e => .error e
        | .ok t => .ok (h ++ t) := rfl

/-- Dropping a file with no contribution from the selection does not change
the per-file loop's output. -/
theorem filesLoop_filter (fileLines : String → List String × List String)
    (binaryList : List String) (p : String)
    (hfp : filePart fileLines binaryList p = .ok []) (sel : List String) :
    filesLoop fileLines binaryList sel =
      filesLoop fileLines binaryList (sel.filter (fun q => q != p)) := by
  induction sel with
  | nil => rfl
  | cons q rest ih =>
    cases hqe : q == p with
    | true =>
      have hqp : q = p := eq_of_beq hqe
      rw [hqp]
      have hfil : (p :: rest).filter (fun r => r != p) = rest.filter (fun r => r != p) := by
        simp only [List.filter, bne_self_eq_false]
      rw [hfil, filesLoop_cons, hfp, ih]
      cases filesLoop fileLines binaryList (rest.filter (fun r => r != p)) <;> simp
    | false =>
      have hfil : (q :: rest).filter (fun r => r != p) =
          q :: rest.filter (fun r => r != p) := by
        simp only [List.filter, bne, hqe, Bool.not_false]
      rw [hfil]
      rw [filesLoop_cons, filesLoop_cons, ih]

/-- Filtering out a non-binary path does not change the selected-binaries
sublist. -/
theorem filter_contains_of_notMem (binaryList : List String) (p : String)
    (h2 : binaryList.contains p = false) (sel : List String) :
    (sel.filter (fun q => q != p)).filter (fun f => binaryList.contains f) =
      sel.filter (fun f => binaryList.contains f) := by
  induction sel with
  | nil => rfl
  | cons q rest ih =>
    cases hqe : q == p with
    | true =>
      have hqp : q = p := eq_of_beq hqe
      rw [hqp]
      have hfil : (p :: rest).filter (fun r => r != p) = rest.filter (fun r => r != p) := by
        simp only [List.filter, bne_self_eq_false]
      rw [hfil, ih]
      have hskip : (p :: rest).filter (fun f => binaryList.contains f) =
          rest.filter (fun f => binaryList.contains f) := by
        simp only [List.filter, h2]
      rw [hskip]
    | false =>
      have hfil : (q :: rest).filter (fun r => r != p) =
          q :: rest.filter (fun r => r != p) := by
        simp only [List.filter, bne, hqe, Bool.not_false]
      rw [hfil]
      cases hb : binaryList.contains q with
      | true =>
        have e1 : (q :: rest.filter (fun r => r != p)).filter
            (fun f => binaryList.contains f) =
            q :: (rest.filter (fun r => r != p)).filter (fun f => binaryList.contains f) := by
          simp only [List.filter, hb]
        have e2 : (q :: rest).filter (fun f => binaryList.contains f) =
            q :: rest.filter (fun f => binaryList.contains f) := by
          simp only [List.filter, hb]
        rw [e1, e2, ih]
      | false =>
        have e1 : (q :: rest.filter (fun r => r != p)).filter
            (fun f => binaryList.contains f) =
            (rest.filter (fun r => r != p)).filter (fun f => binaryList.contains f) := by
          simp only [List.filter, hb]
        have e2 : (q :: rest).filter (fun f => binaryList.contains f) =
            rest.filter (fun f => binaryList.contains f) := by
          simp only [List.filter, hb]
        rw [e1, e2, ih]

/-- C10: when a file's old and new line sequences are both empty,
`create_interleaved_diff` returns the empty string (neither the
whole-file-added nor the whole-file-deleted branch fires and no lines are
emitted), and `format_prompt` therefore omits that file entirely: the output
equals the output for the selection without it — no heading and no fenced
block appear for it. -/
theorem c10_emptyFileOmitted (readme : Option String)
    (fileLines : String → List String × List String)
    (selected binaryList : List String) (p : String)
    (h1 : fileLines p = ([], [])) (h2 : binaryList.contains p = false) :
    createInterleavedDiff [] [] = .ok "" ∧
    formatPrompt readme fileLines selected [] binaryList =
      formatPrompt readme fileLines (selected.filter (fun q => q != p)) [] binaryList := by
  refine ⟨by decide, ?_⟩
  unfold formatPrompt
  rw [← filesLoop_filter fileLines binaryList p (filePart_skip fileLines binaryList p h1 h2)
    selected]
  rw [filter_contains_of_notMem binaryList p h2 selected]
  rfl

/-- Closed witness for `c10_emptyFileOmitted`: a lone selected file whose
two revisions are empty produces the bare document skeleton. -/
theorem c10_emptyFileOmitted_witness :
    createInterleavedDiff [] [] = .ok "" ∧
    formatPrompt none (fun _ => ([], [])) ["f.py"] [] [] =
      formatPrompt none (fun _ => ([], [])) (["f.py"].filter (fun q => q != "f.py")) [] [] :=
  c10_emptyFileOmitted none (fun _ => ([], [])) ["f.py"] [] "f.py" rfl rfl

/-- A boolean list-prefix test certifies a concatenation decomposition. -/
theorem exists_append_of_isPrefixOf :
    ∀ (xs ys : List Char), xs.isPrefixOf ys = true → ∃ zs, ys = xs ++ zs := by
  intro xs
  induction xs with
  | nil => intro ys _; exact ⟨ys, rfl⟩
  | cons x xs ih =>
    intro ys h
    cases ys with
    | nil => simp [List.isPrefixOf] at h
    | cons y ys =>
      rw [List.isPrefixOf, Bool.and_eq_true] at h
      obtain ⟨zs, hz⟩ := ih ys h.2
      exact ⟨zs, by rw [hz, eq_of_beq h.1]; rfl⟩

/-- A positive `startswith` test certifies a concatenation decomposition at
the string level. -/
theorem pyStartsWith_exists (l p : String) (h : pyStartsWith l p = true) :
    ∃ t, l = p ++ t := by
  obtain ⟨zs, hz⟩ := exists_append_of_isPrefixOf p.data l.data h
  refine ⟨String.mk zs, ?_⟩
  cases l with
  | mk ld =>
    cases p with
    | mk pd =>
      rw [show ld = pd ++ zs from hz]
      rfl

/-- Lines built by the kept-context emitters carry the space tag. -/
theorem taggedLine_space (t : String) : taggedLine (" " ++ t) :=
  ⟨t, Or.inr (Or.inr rfl)⟩

/-- A line passing `startswith("-")` is in tagged form. -/
theorem taggedLine_of_minus (l : String) (h : pyStartsWith l "-" = true) : taggedLine l := by
  obtain ⟨t, ht⟩ := pyStartsWith_exists l "-" h
  exact ⟨t, Or.inr (Or.inl ht)⟩

/-- A line passing `startswith("+")` is in tagged form. -/
theorem taggedLine_of_plus (l : String) (h : pyStartsWith l "+" = true) : taggedLine l := by
  obtain ⟨t, ht⟩ := pyStartsWith_exists l "+" h
  exact ⟨t, Or.inl ht⟩

/-- The kept-context loop preserves taggedness of the accumulated result. -/
theorem keptLoop_tagged (old_lines : List String) (oldT newT : Int) :
    ∀ (cnt : Nat) (oldPos newPos : Int) (acc : List String) (st : ILState),
      (∀ l ∈ acc, taggedLine l) →
      keptLoop old_lines oldT newT cnt oldPos newPos acc = .ok st →
      ∀ l ∈ st.result, taggedLine l := by
  intro cnt
  induction cnt with
  | zero =>
    intro oldPos newPos acc st hacc h
    rw [keptLoop] at h
    cases h
    exact hacc
  | succ n ih =>
    intro oldPos newPos acc st hacc h
    rw [keptLoop] at h
    by_cases hc : oldPos < oldT ∧ newPos < newT
    · rw [if_pos hc] at h
      cases hg : pyGet old_lines oldPos with
      | error e => rw [hg] at h; cases h
      | ok s =>
        rw [hg] at h
        refine ih _ _ _ _ ?_ h
        intro l hl
        rcases List.mem_append.mp hl with hl | hl
        · exact hacc l hl
        · rw [List.mem_singleton.mp hl]; exact taggedLine_space s
    · rw [if_neg hc] at h
      cases h
      exact hacc

/-- The trailing kept-line loop preserves taggedness. -/
theorem tailLoop_tagged (new_lines : List String) :
    ∀ (cnt : Nat) (newPos : Int) (acc : List String) (r : List String),
      (∀ l ∈ acc, taggedLine l) →
      tailLoop new_lines cnt newPos acc = .ok r →
      ∀ l ∈ r, taggedLine l := by
  intro cnt
  induction cnt with
  | zero =>
    intro newPos acc r hacc h
    rw [tailLoop] at h
    cases h
    exact hacc
  | succ n ih =>
    intro newPos acc r hacc h
    rw [tailLoop] at h
    by_cases hc : newPos < (new_lines.length : Int)
    · rw [if_pos hc] at h
      cases hg : pyGet new_lines newPos with
      | error e => rw [hg] at h; cases h
      | ok s =>
        rw [hg] at h
        refine ih _ _ _ ?_ h
        intro l hl
        rcases List.mem_append.mp hl with hl | hl
        · exact hacc l hl
        · rw [List.mem_singleton.mp hl]; exact taggedLine_space s
    · rw [if_neg hc] at h
      cases h
      exact hacc

/-- The main parsing loop preserves taggedness: hunk body lines are appended
verbatim only after passing a `startswith` test for `-` or `+`, and every
other appended line is built with a space tag. -/
theorem interleaveLoop_tagged (old_lines : List String) :
    ∀ (dl : List String) (st st' : ILState),
      (∀ l ∈ st.result, taggedLine l) →
      interleaveLoop old_lines dl st = .ok st' →
      ∀ l ∈ st'.result, taggedLine l := by
  intro dl
  induction dl with
  | nil =>
    intro st st' hst h
    rw [interleaveLoop] at h
    cases h
    exact hst
  | cons line rest ih =>
    intro st st' hst h
    rw [interleaveLoop] at h
    by_cases h1 : pyStartsWith line "@@"
    · rw [if_pos h1] at h
      by_cases h2 : 3 ≤ (pySplit line " ").length
      · rw [if_pos h2] at h
        cases hpo : parseRangeInfo ((pySplit line " ").getD 1 "") with
        | error e => rw [hpo] at h; cases h
        | ok o =>
          cases hpn : parseRangeInfo ((pySplit line " ").getD 2 "") with
          | error e => rw [hpo, hpn] at h; cases h
          | ok n =>
            rw [hpo, hpn] at h
            dsimp only at h
            cases hkl : keptLoop old_lines (o.1 - 1) (n.1 - 1)
                (o.1 - 1 - st.oldPos).toNat st.oldPos st.newPos st.result with
            | error e => rw [hkl] at h; cases h
            | ok stk =>
              rw [hkl] at h
              dsimp only at h
              exact ih ⟨stk.result, o.1 - 1, n.1 - 1⟩ st'
                (fun l hl =>
                  keptLoop_tagged old_lines (o.1 - 1) (n.1 - 1) _ _ _ _ stk hst hkl l hl) h
      · rw [if_neg h2] at h
        exact ih _ _ hst h
    · rw [if_neg h1] at h
      by_cases h2 : pyStartsWith line "-"
      · rw [if_pos h2] at h
        refine ih _ _ ?_ h
        intro l hl
        rcases List.mem_append.mp hl with hl | hl
        · exact hst l hl
        · rw [List.mem_singleton.mp hl]; exact taggedLine_of_minus line h2
      · rw [if_neg h2] at h
        by_cases h3 : pyStartsWith line "+"
        · rw [if_pos h3] at h
          refine ih _ _ ?_ h
          intro l hl
          rcases List.mem_append.mp hl with hl | hl
          · exact hst l hl
          · rw [List.mem_singleton.mp hl]; exact taggedLine_of_plus line h3
        · rw [if_neg h3] at h
          refine ih _ _ ?_ h
          intro l hl
          rcases List.mem_append.mp hl with hl | hl
          · exact hst l hl
          · rw [List.mem_singleton.mp hl]; exact taggedLine_space (pyDrop line 1)

/-- C8: every line of the interleaved diff is in tagged wire format — a
one-character marker (`+` for Added, `-` for Removed, a single space for
Kept, present even when the kept text is empty, keeping the column
fixed-width) followed by the line's text. -/
theorem c8_lineTagging (old_lines new_lines L : List String)
    (h : createInterleavedDiffLines old_lines new_lines = .ok L) :
    ∀ l ∈ L, taggedLine l := by
  rw [createInterleavedDiffLines] at h
  by_cases hb1 : old_lines = [] ∧ new_lines ≠ []
  · rw [if_pos hb1] at h
    cases h
    intro l hl
    obtain ⟨x, _, hx⟩ := List.mem_map.mp hl
    exact hx ▸ taggedLine_of_plus _ (by simp [pyStartsWith, List.isPrefixOf])
  · rw [if_neg hb1] at h
    by_cases hb2 : old_lines ≠ [] ∧ new_lines = []
    · rw [if_pos hb2] at h
      cases h
      intro l hl
      obtain ⟨x, _, hx⟩ := List.mem_map.mp hl
      exact hx ▸ taggedLine_of_minus _ (by simp [pyStartsWith, List.isPrefixOf])
    · rw [if_neg hb2] at h
      rw [interleaveHunks] at h
      cases hil : interleaveLoop old_lines
          (if 2 < (unifiedDiff old_lines new_lines).length then
            (unifiedDiff old_lines new_lines).drop 2
          else unifiedDiff old_lines new_lines) ⟨[], 0, 0⟩ with
      | error e => rw [hil] at h; cases h
      | ok st =>
        rw [hil] at h
        exact tailLoop_tagged new_lines _ _ _ _
          (interleaveLoop_tagged old_lines _ _ _ (by intro l hl; cases hl) hil) h

/-- Closed witness for `c8_lineTagging` at a one-line replacement. -/
theorem c8_lineTagging_witness : taggedLine "-a" :=
  c8_lineTagging ["a"] ["b"] ["-a", "+b"] (by decide) "-a" (by decide)

/-- Python indexing succeeds on an in-range non-negative index. -/
theorem pyGet_ok (xs : List String) (i : Int) (h1 : 0 ≤ i)
    (h2 : i < (xs.length : Int)) : pyGet xs i = .ok (xs.getD i.toNat "") := by
  have hn : ¬i < 0 := by omega
  simp [pyGet, hn, h1, h2]

/-- The kept-context loop cannot raise while its old-side target is within
the old sequence and the old cursor is non-negative. -/
theorem keptLoop_ok (old_lines : List String) (oldT newT : Int)
    (hT : oldT ≤ (old_lines.length : Int)) :
    ∀ (cnt : Nat) (oldPos newPos : Int) (acc : List String), 0 ≤ oldPos →
      ∃ st, keptLoop old_lines oldT newT cnt oldPos newPos acc = .ok st := by
  intro cnt
  induction cnt with
  | zero => intro oldPos newPos acc _; exact ⟨⟨acc, oldPos, newPos⟩, rfl⟩
  | succ n ih =>
    intro oldPos newPos acc h0
    by_cases hc : oldPos < oldT ∧ newPos < newT
    · have hg := pyGet_ok old_lines oldPos h0 (by omega)
      obtain ⟨st, hst⟩ := ih (oldPos + 1) (newPos + 1)
        (acc ++ [" " ++ old_lines.getD oldPos.toNat ""]) (by omega)
      exact ⟨st, by rw [keptLoop, if_pos hc, hg]; dsimp only; exact hst⟩
    · exact ⟨⟨acc, oldPos, newPos⟩, by rw [keptLoop, if_neg hc]⟩

/-- The trailing loop cannot raise while the new cursor is non-negative. -/
theorem tailLoop_ok (new_lines : List String) :
    ∀ (cnt : Nat) (newPos : Int) (acc : List String), 0 ≤ newPos →
      ∃ r, tailLoop new_lines cnt newPos acc = .ok r := by
  intro cnt
  induction cnt with
  | zero => intro newPos acc _; exact ⟨acc, rfl⟩
  | succ n ih =>
    intro newPos acc h0
    by_cases hc : newPos < (new_lines.length : Int)
    · have hg := pyGet_ok new_lines newPos h0 hc
      obtain ⟨r, hr⟩ := ih (newPos + 1) (acc ++ [" " ++ new_lines.getD newPos.toNat ""])
        (by omega)
      exact ⟨r, by rw [tailLoop, if_pos hc, hg]; dsimp only; exact hr⟩
    · exact ⟨acc, by rw [tailLoop, if_neg hc]⟩

/-- The main parsing loop cannot raise when every header in the stream
parses with in-bounds declared starts: the cursors stay non-negative (each
header resynchronizes them to `old_start - 1` / `new_start - 1` and body
lines only advance them), and the kept-context loop only indexes below
`old_start - 1 ≤ len(old_lines)`. -/
theorem interleaveLoop_ok (old_lines : List String) :
    ∀ (dl : List String) (st : ILState),
      (∀ l ∈ dl, headerBoundsOk old_lines l = true) →
      0 ≤ st.oldPos → 0 ≤ st.newPos →
      ∃ st', interleaveLoop old_lines dl st = .ok st' ∧ 0 ≤ st'.oldPos ∧ 0 ≤ st'.newPos := by
  intro dl
  induction dl with
  | nil => intro st _ ho hn; exact ⟨st, rfl, ho, hn⟩
  | cons line rest ih =>
    intro st hdl ho hn
    have hline := hdl line (List.mem_cons_self line rest)
    have hrest : ∀ l ∈ rest, headerBoundsOk old_lines l = true :=
      fun l hl => hdl l (List.mem_cons_of_mem line hl)
    by_cases h1 : pyStartsWith line "@@"
    · by_cases h2 : 3 ≤ (pySplit line " ").length
      · rw [headerBoundsOk, if_pos h1] at hline
        rw [if_pos h2] at hline
        cases hpo : parseRangeInfo ((pySplit line " ").getD 1 "") with
        | error e => rw [hpo] at hline; cases hpn : parseRangeInfo ((pySplit line " ").getD 2 "") <;>
            rw [hpn] at hline <;> exact absurd hline (by simp)
        | ok o =>
          cases hpn : parseRangeInfo ((pySplit line " ").getD 2 "") with
          | error e => rw [hpo, hpn] at hline; exact absurd hline (by simp)
          | ok n =>
            rw [hpo, hpn] at hline
            have hb := of_decide_eq_true hline
            obtain ⟨stk, hkl⟩ := keptLoop_ok old_lines (o.1 - 1) (n.1 - 1)
              (by omega) (o.1 - 1 - st.oldPos).toNat st.oldPos st.newPos st.result ho
            obtain ⟨st', hst', ho', hn'⟩ := ih ⟨stk.result, o.1 - 1, n.1 - 1⟩ hrest
              (by simp; omega) (by simp; omega)
            refine ⟨st', ?_, ho', hn'⟩
            rw [interleaveLoop, if_pos h1, if_pos h2, hpo, hpn]
            dsimp only
            rw [hkl]
            dsimp only
            exact hst'
      · obtain ⟨st', hst', ho', hn'⟩ := ih st hrest ho hn
        exact ⟨st', by rw [interleaveLoop, if_pos h1, if_neg h2]; exact hst', ho', hn'⟩
    · by_cases h2 : pyStartsWith line "-"
      · obtain ⟨st', hst', ho', hn'⟩ := ih ⟨st.result ++ [line], st.oldPos + 1, st.newPos⟩
          hrest (by simp; omega) (by simp; omega)
        exact ⟨st', by rw [interleaveLoop, if_neg h1, if_pos h2]; exact hst', ho', hn'⟩
      · by_cases h3 : pyStartsWith line "+"
        · obtain ⟨st', hst', ho', hn'⟩ := ih ⟨st.result ++ [line], st.oldPos, st.newPos + 1⟩
            hrest (by simp; omega) (by simp; omega)
          exact ⟨st', by rw [interleaveLoop, if_neg h1, if_neg h2, if_pos h3]; exact hst',
            ho', hn'⟩
        · obtain ⟨st', hst', ho', hn'⟩ := ih
            ⟨st.result ++ [" " ++ pyDrop line 1], st.oldPos + 1, st.newPos + 1⟩
            hrest (by simp; omega) (by simp; omega)
          exact ⟨st', by rw [interleaveLoop, if_neg h1, if_neg h2, if_neg h3]; exact hst',
            ho', hn'⟩

/-- C7 (amended): the interleaving of a hunk stream with the two line
sequences raises no error provided every header line that parses declares
`1 ≤ old_start ≤ len(old_lines) + 1` and `1 ≤ new_start`; within that
regime the guard stops kept-context emission as soon as either cursor
reaches its declared start and both cursors are resynchronized to the
declared starts.  (Without such a bound the kept-context loop can index out
of range and raise.) -/
theorem c7_noCrash_boundedHeaders (dl old_lines new_lines : List String)
    (h : ∀ l ∈ dl, headerBoundsOk old_lines l = true) :
    ∃ r, interleaveHunks dl old_lines new_lines = .ok r := by
  obtain ⟨st, hst, _, hn⟩ := interleaveLoop_ok old_lines dl ⟨[], 0, 0⟩ h (by decide) (by decide)
  rw [interleaveHunks, hst]
  exact tailLoop_ok new_lines _ st.newPos st.result hn

/-- Closed witness for `c7_noCrash_boundedHeaders` on a well-formed
single-hunk stream whose body lines contain spaces (only the `@@` header is
constrained by the hypothesis). -/
theorem c7_noCrash_boundedHeaders_witness :
    ∃ r, interleaveHunks ["@@ -2 +2 @@", "-x = 1", "+x = 2"] ["a", "x = 1", "c"]
      ["a", "x = 2", "c"] = .ok r :=
  c7_noCrash_boundedHeaders ["@@ -2 +2 @@", "-x = 1", "+x = 2"] ["a", "x = 1", "c"]
    ["a", "x = 2", "c"] (by decide)

/-- Membership in the occurrence index. -/
theorem mem_occIdxs (b : List String) (x : String) (j : Nat) :
    j ∈ occIdxs b x ↔ j < b.length ∧ b.getD j "" = x := by
  simp [occIdxs, List.mem_filter, List.mem_range]

/-- The occurrence index is strictly ascending. -/
theorem occIdxs_sorted (b : List String) (x : String) :
    (occIdxs b x).Pairwise (· < ·) :=
  (List.pairwise_lt_range b.length).filter _

/-- The purged index is either empty or the full occurrence index. -/
theorem b2jGet_eq_or (b : List String) (x : String) :
    b2jGet b x = [] ∨ b2jGet b x = occIdxs b x := by
  rw [b2jGet]
  by_cases h : 200 ≤ b.length ∧ b.length / 100 + 1 < (occIdxs b x).length
  · rw [if_pos h]; exact Or.inl rfl
  · rw [if_neg h]; exact Or.inr rfl

/-- A run ending at `i` has length at most `i + 1`. -/
theorem runEnd_le_succ (a : List String) : ∀ i, runEnd a i ≤ i + 1 := by
  intro i
  induction i with
  | zero => rw [runEnd]; split <;> omega
  | succ n ih => rw [runEnd]; split <;> omega

/-- For a surviving line the run extends the previous row's run by one. -/
theorem runEnd_of_surv (a : List String) (i : Nat)
    (h : b2jGet a (a.getD i "") ≠ []) : runEnd a i = rowBound a i + 1 := by
  cases i with
  | zero => rw [runEnd, if_neg h, rowBound]
  | succ n => rw [runEnd, if_neg h, rowBound]

/-- A member of a strictly ascending list splits it into a smaller prefix
and a larger suffix. -/
theorem sorted_mem_split {l : List Nat} {i : Nat}
    (hs : l.Pairwise (· < ·)) (hi : i ∈ l) :
    ∃ pre post, l = pre ++ i :: post ∧ (∀ j ∈ pre, j < i) ∧ ∀ j ∈ post, i < j := by
  obtain ⟨pre, post, rfl⟩ := List.append_of_mem hi
  rw [List.pairwise_append] at hs
  obtain ⟨h1, h2, h3⟩ := hs
  refine ⟨pre, post, rfl, ?_, ?_⟩
  · exact fun j hj => h3 j hj i (List.mem_cons_self i post)
  · exact fun j hj => (List.pairwise_cons.mp h2).1 j hj

/-- Processing a concatenation of occurrence lists row-wise decomposes into
two passes when no index reaches the break bound. -/
theorem flmRow_append (i blo bhi : Nat) (j2len : Nat → Nat) :
    ∀ (l1 l2 : List Nat) (acc : Nat → Nat) (best : Nat × Nat × Nat),
      (∀ j ∈ l1, j < bhi) →
      flmRow i blo bhi j2len (l1 ++ l2) acc best =
        flmRow i blo bhi j2len l2 (flmRow i blo bhi j2len l1 acc best).1
          (flmRow i blo bhi j2len l1 acc best).2 := by
  intro l1
  induction l1 with
  | nil => intro l2 acc best _; rfl
  | cons j l1 ih =>
    intro l2 acc best hb
    have hjb : j < bhi := hb j (List.mem_cons_self j l1)
    have hb1 : ∀ j ∈ l1, j < bhi := fun j hj => hb j (List.mem_cons_of_mem _ hj)
    by_cases hlo : j < blo
    · rw [List.cons_append, flmRow, if_pos hlo, ih l2 acc best hb1]
      rw [show flmRow i blo bhi j2len (j :: l1) acc best =
        flmRow i blo bhi j2len l1 acc best from by rw [flmRow, if_pos hlo]]
    · rw [List.cons_append, flmRow, if_neg hlo, if_neg (by omega : ¬bhi ≤ j)]
      rw [ih]
      · rw [show flmRow i blo bhi j2len (j :: l1) acc best =
          flmRow i blo bhi j2len l1
            (fun j' => if j' = j then (if j = 0 then 0 else j2len (j - 1)) + 1 else acc j')
            (if best.2.2 < (if j = 0 then 0 else j2len (j - 1)) + 1 then
              (i + 1 - ((if j = 0 then 0 else j2len (j - 1)) + 1),
               j + 1 - ((if j = 0 then 0 else j2len (j - 1)) + 1),
               (if j = 0 then 0 else j2len (j - 1)) + 1)
            else best) from by rw [flmRow, if_neg hlo, if_neg (by omega : ¬bhi ≤ j)]]
      · exact hb1

/-- Stage 1 of a row on identical sequences: occurrences left of the
diagonal never update the best triple (their chain lengths are dominated by
an already-seen run) and only add bounded entries to the new row. -/
theorem flmRow_pre (a : List String) (i : Nat) (hi : i < a.length)
    (hsurv : b2jGet a (a.getD i "") ≠ []) :
    ∀ (pre : List Nat) (j2len acc : Nat → Nat) (d bs : Nat),
      (∀ j ∈ pre, j < i ∧ a.getD j "" = a.getD i "") →
      (∀ j, j2len j ≤ runEnd a j) →
      (∀ j, j2len j ≤ rowBound a i) →
      (∀ i' < i, runEnd a i' ≤ bs) →
      (∀ j, acc j ≤ runEnd a j) →
      (∀ j, acc j ≤ runEnd a i) →
      ∃ acc', flmRow i 0 a.length j2len pre acc (d, d, bs) = (acc', (d, d, bs)) ∧
        (∀ j, acc' j ≤ runEnd a j) ∧ (∀ j, acc' j ≤ runEnd a i) ∧ acc' i = acc i := by
  intro pre
  induction pre with
  | nil =>
    intro j2len acc d bs _ _ _ _ hacol harow
    exact ⟨acc, rfl, hacol, harow, rfl⟩
  | cons j pre ih =>
    intro j2len acc d bs hmem hcol hrow hdom hacol harow
    obtain ⟨hji, hjval⟩ := hmem j (List.mem_cons_self j pre)
    have hmem1 : ∀ j' ∈ pre, j' < i ∧ a.getD j' "" = a.getD i "" :=
      fun j' hj' => hmem j' (List.mem_cons_of_mem _ hj')
    have hjsurv : b2jGet a (a.getD j "") ≠ [] := by rw [hjval]; exact hsurv
    have hrEi : runEnd a i = rowBound a i + 1 := runEnd_of_surv a i hsurv
    have hrEj : runEnd a j = rowBound a j + 1 := runEnd_of_surv a j hjsurv
    have hkcol : (if j = 0 then 0 else j2len (j - 1)) + 1 ≤ runEnd a j := by
      cases j with
      | zero =>
        rw [if_pos rfl, hrEj]
        omega
      | succ m =>
        have h1 := hcol m
        have h2 : runEnd a (m + 1) = runEnd a m + 1 := by rw [hrEj]; rfl
        rw [if_neg (Nat.succ_ne_zero m), Nat.succ_sub_one]
        omega
    have hkrow : (if j = 0 then 0 else j2len (j - 1)) + 1 ≤ runEnd a i := by
      cases j with
      | zero =>
        rw [if_pos rfl, hrEi]
        omega
      | succ m =>
        have h1 := hrow m
        rw [if_neg (Nat.succ_ne_zero m), Nat.succ_sub_one, hrEi]
        omega
    have hnoup : ¬bs < (if j = 0 then 0 else j2len (j - 1)) + 1 := by
      have := hdom j hji
      omega
    have hstep : flmRow i 0 a.length j2len (j :: pre) acc (d, d, bs) =
        flmRow i 0 a.length j2len pre
          (fun j' => if j' = j then (if j = 0 then 0 else j2len (j - 1)) + 1 else acc j')
          (d, d, bs) := by
      rw [flmRow, if_neg (Nat.not_lt_zero j), if_neg (show ¬a.length ≤ j by omega)]
      dsimp only
      rw [if_neg hnoup]
    rw [hstep]
    refine ih j2len _ d bs hmem1 hcol hrow hdom ?_ ?_ |>.imp fun acc' h =>
      ⟨h.1, h.2.1, h.2.2.1, by rw [h.2.2.2]; exact if_neg (by omega)⟩
    · intro j'
      by_cases hj' : j' = j
      · subst hj'; simpa using hkcol
      · simpa [hj'] using hacol j'
    · intro j'
      by_cases hj' : j' = j
      · subst hj'; simpa using hkrow
      · simpa [hj'] using harow j'

/-- Stage 2 of a row on identical sequences: the diagonal occurrence attains
exactly the current run length; if that beats the best size the new best is
diagonal, and afterwards the best dominates every run up to the current
row. -/
theorem flmRow_diag (a : List String) (i : Nat) (hi : i < a.length)
    (hsurv : b2jGet a (a.getD i "") ≠ []) (j2len acc : Nat → Nat) (d bs : Nat)
    (hdiag : ∀ i', i = i' + 1 → j2len i' = runEnd a i')
    (hdbs : d + bs ≤ a.length)
    (hdom : ∀ i' < i, runEnd a i' ≤ bs)
    (hacol : ∀ j, acc j ≤ runEnd a j)
    (harow : ∀ j, acc j ≤ runEnd a i) :
    ∃ acc' d' bs', flmRow i 0 a.length j2len [i] acc (d, d, bs) = (acc', (d', d', bs')) ∧
      (∀ j, acc' j ≤ runEnd a j) ∧ (∀ j, acc' j ≤ runEnd a i) ∧ acc' i = runEnd a i ∧
      d' + bs' ≤ a.length ∧ ∀ i' < i + 1, runEnd a i' ≤ bs' := by
  have hk : (if i = 0 then 0 else j2len (i - 1)) + 1 = runEnd a i := by
    cases i with
    | zero => rw [if_pos rfl, runEnd_of_surv a 0 hsurv]; rfl
    | succ m =>
      rw [if_neg (Nat.succ_ne_zero m), Nat.succ_sub_one, hdiag m rfl,
        runEnd_of_surv a (m + 1) hsurv]
      rfl
  have hstep : flmRow i 0 a.length j2len [i] acc (d, d, bs) =
      ((fun j' => if j' = i then (if i = 0 then 0 else j2len (i - 1)) + 1 else acc j'),
        (if bs < (if i = 0 then 0 else j2len (i - 1)) + 1 then
          (i + 1 - ((if i = 0 then 0 else j2len (i - 1)) + 1),
            i + 1 - ((if i = 0 then 0 else j2len (i - 1)) + 1),
            (if i = 0 then 0 else j2len (i - 1)) + 1)
        else (d, d, bs))) := by
    rw [flmRow, if_neg (Nat.not_lt_zero i), if_neg (show ¬a.length ≤ i by omega)]
    rfl
  rw [hk] at hstep
  have hrle := runEnd_le_succ a i
  have haccup : ∀ j, (fun j' => if j' = i then runEnd a i else acc j') j ≤ runEnd a j := by
    intro j
    by_cases hj : j = i
    · subst hj; simp
    · simpa [hj] using hacol j
  have haccrow : ∀ j, (fun j' => if j' = i then runEnd a i else acc j') j ≤ runEnd a i := by
    intro j
    by_cases hj : j = i
    · subst hj; simp
    · simpa [hj] using harow j
  by_cases hbk : bs < runEnd a i
  · rw [if_pos hbk] at hstep
    refine ⟨_, i + 1 - runEnd a i, runEnd a i, hstep, haccup, haccrow, by simp, by omega, ?_⟩
    intro i' hi'
    rcases Nat.lt_succ_iff_lt_or_eq.mp hi' with h | h
    · exact le_of_lt (lt_of_le_of_lt (hdom i' h) hbk)
    · subst h; exact le_refl _
  · rw [if_neg hbk] at hstep
    refine ⟨_, d, bs, hstep, haccup, haccrow, by simp, hdbs, ?_⟩
    intro i' hi'
    rcases Nat.lt_succ_iff_lt_or_eq.mp hi' with h | h
    · exact hdom i' h
    · subst h; omega

/-- Stage 3 of a row on identical sequences: occurrences right of the
diagonal are bounded by the current run, which the best already dominates,
so the best never changes. -/
theorem flmRow_post (a : List String) (i : Nat) (hi : i < a.length)
    (hsurv : b2jGet a (a.getD i "") ≠ []) :
    ∀ (post : List Nat) (j2len acc : Nat → Nat) (d bs : Nat),
      (∀ j ∈ post, i < j ∧ j < a.length ∧ a.getD j "" = a.getD i "") →
      (∀ j, j2len j ≤ runEnd a j) →
      (∀ j, j2len j ≤ rowBound a i) →
      runEnd a i ≤ bs →
      (∀ j, acc j ≤ runEnd a j) → (∀ j, acc j ≤ runEnd a i) → acc i = runEnd a i →
      ∃ acc', flmRow i 0 a.length j2len post acc (d, d, bs) = (acc', (d, d, bs)) ∧
        (∀ j, acc' j ≤ runEnd a j) ∧ (∀ j, acc' j ≤ runEnd a i) ∧ acc' i = runEnd a i := by
  intro post
  induction post with
  | nil =>
    intro j2len acc d bs _ _ _ _ hacol harow hacci
    exact ⟨acc, rfl, hacol, harow, hacci⟩
  | cons j post ih =>
    intro j2len acc d bs hmem hcol hrow hdombs hacol harow hacci
    obtain ⟨hji, hjla, hjval⟩ := hmem j (List.mem_cons_self j post)
    have hmem1 : ∀ j' ∈ post, i < j' ∧ j' < a.length ∧ a.getD j' "" = a.getD i "" :=
      fun j' hj' => hmem j' (List.mem_cons_of_mem _ hj')
    have hjsurv : b2jGet a (a.getD j "") ≠ [] := by rw [hjval]; exact hsurv
    have hrEi : runEnd a i = rowBound a i + 1 := runEnd_of_surv a i hsurv
    have hrEj : runEnd a j = rowBound a j + 1 := runEnd_of_surv a j hjsurv
    have hkcol : (if j = 0 then 0 else j2len (j - 1)) + 1 ≤ runEnd a j := by
      cases j with
      | zero =>
        rw [if_pos rfl, hrEj]
        omega
      | succ m =>
        have h1 := hcol m
        have h2 : runEnd a (m + 1) = runEnd a m + 1 := by rw [hrEj]; rfl
        rw [if_neg (Nat.succ_ne_zero m), Nat.succ_sub_one]
        omega
    have hkrow : (if j = 0 then 0 else j2len (j - 1)) + 1 ≤ runEnd a i := by
      cases j with
      | zero =>
        rw [if_pos rfl, hrEi]
        omega
      | succ m =>
        have h1 := hrow m
        rw [if_neg (Nat.succ_ne_zero m), Nat.succ_sub_one, hrEi]
        omega
    have hnoup : ¬bs < (if j = 0 then 0 else j2len (j - 1)) + 1 := by omega
    have hstep : flmRow i 0 a.length j2len (j :: post) acc (d, d, bs) =
        flmRow i 0 a.length j2len post
          (fun j' => if j' = j then (if j = 0 then 0 else j2len (j - 1)) + 1 else acc j')
          (d, d, bs) := by
      rw [flmRow, if_neg (Nat.not_lt_zero j), if_neg (show ¬a.length ≤ j by omega)]
      dsimp only
      rw [if_neg hnoup]
    rw [hstep]
    refine ih j2len _ d bs hmem1 hcol hrow hdombs ?_ ?_ ?_
    · intro j'
      by_cases hj' : j' = j
      · subst hj'; simpa using hkcol
      · simpa [hj'] using hacol j'
    · intro j'
      by_cases hj' : j' = j
      · subst hj'; simpa using hkrow
      · simpa [hj'] using harow j'
    · simpa [show i ≠ j by omega] using hacci

/-- The main loop of `find_longest_match` on identical sequences keeps the
best match diagonal and in range. -/
theorem flmRounds_inv (a : List String) :
    ∀ (cnt i : Nat) (j2len : Nat → Nat) (best : Nat × Nat × Nat),
      i + cnt = a.length → flmInv a i j2len best →
      ∃ d bs, flmRounds a a 0 a.length i cnt j2len best = (d, d, bs) ∧
        d + bs ≤ a.length := by
  intro cnt
  induction cnt with
  | zero =>
    intro i j2len best _ hinv
    obtain ⟨_, _, _, d, bs, hb, hdbs, _⟩ := hinv
    exact ⟨d, bs, by rw [flmRounds, hb], hdbs⟩
  | succ n ih =>
    intro i j2len best hic hinv
    obtain ⟨hcol, hrow, hdiag, d, bs, hb, hdbs, hdom⟩ := hinv
    subst hb
    have hi : i < a.length := by omega
    cases hjs : b2jGet a (a.getD i "") with
    | nil =>
      have hre : runEnd a i = 0 := by
        cases i with
        | zero => rw [runEnd, if_pos hjs]
        | succ m => rw [runEnd, if_pos hjs]
      have hstep : flmRounds a a 0 a.length i (n + 1) j2len (d, d, bs) =
          flmRounds a a 0 a.length (i + 1) n (fun _ => 0) (d, d, bs) := by
        rw [flmRounds, hjs]
        rfl
      rw [hstep]
      refine ih (i + 1) (fun _ => 0) (d, d, bs) (by omega)
        ⟨fun j => Nat.zero_le _, fun j => Nat.zero_le _, ?_, d, bs, rfl, hdbs, ?_⟩
      · intro i' hii'
        have : i' = i := by omega
        subst this
        rw [hre]
      · intro i' hi'
        rcases Nat.lt_succ_iff_lt_or_eq.mp hi' with h | h
        · exact hdom i' h
        · subst h; rw [hre]; exact Nat.zero_le _
    | cons j0 js0 =>
      have hne : b2jGet a (a.getD i "") ≠ [] := by rw [hjs]; simp
      have hocc : b2jGet a (a.getD i "") = occIdxs a (a.getD i "") :=
        (b2jGet_eq_or a (a.getD i "")).resolve_left hne
      have himem : i ∈ occIdxs a (a.getD i "") := (mem_occIdxs a _ i).mpr ⟨hi, rfl⟩
      obtain ⟨pre, post, hsplit, hpre, hpost⟩ :=
        sorted_mem_split (occIdxs_sorted a (a.getD i "")) himem
      have hpremem : ∀ j ∈ pre, j < i ∧ a.getD j "" = a.getD i "" := by
        intro j hj
        have : j ∈ occIdxs a (a.getD i "") := by
          rw [hsplit]; exact List.mem_append_left _ hj
        exact ⟨hpre j hj, ((mem_occIdxs a _ j).mp this).2⟩
      have hpostmem : ∀ j ∈ post, i < j ∧ j < a.length ∧ a.getD j "" = a.getD i "" := by
        intro j hj
        have : j ∈ occIdxs a (a.getD i "") := by
          rw [hsplit]
          exact List.mem_append_right _ (List.mem_cons_of_mem _ hj)
        have hmo := (mem_occIdxs a _ j).mp this
        exact ⟨hpost j hj, hmo.1, hmo.2⟩
      obtain ⟨acc1, heq1, hacol1, harow1, hacc1i⟩ :=
        flmRow_pre a i hi hne pre j2len (fun _ => 0) d bs hpremem hcol hrow hdom
          (fun j => Nat.zero_le _) (fun j => Nat.zero_le _)
      obtain ⟨acc2, d2, bs2, heq2, hacol2, harow2, hacc2i, hdbs2, hdom2⟩ :=
        flmRow_diag a i hi hne j2len acc1 d bs hdiag hdbs hdom hacol1 harow1
      obtain ⟨acc3, heq3, hacol3, harow3, hacc3i⟩ :=
        flmRow_post a i hi hne post j2len acc2 d2 bs2 hpostmem hcol hrow
          (hdom2 i (Nat.lt_succ_self i)) hacol2 harow2 hacc2i
      have hrowEq : flmRow i 0 a.length j2len (occIdxs a (a.getD i "")) (fun _ => 0)
          (d, d, bs) = (acc3, (d2, d2, bs2)) := by
        rw [hsplit]
        rw [flmRow_append i 0 a.length j2len pre (i :: post) (fun _ => 0) (d, d, bs)
          (fun j hj => by have := (hpremem j hj).1; omega)]
        rw [heq1]
        rw [show (i :: post) = [i] ++ post from rfl]
        rw [flmRow_append i 0 a.length j2len [i] post acc1 (d, d, bs)
          (fun j hj => by rw [List.mem_singleton.mp hj]; omega)]
        rw [heq2]
        rw [heq3]
      have hstep : flmRounds a a 0 a.length i (n + 1) j2len (d, d, bs) =
          flmRounds a a 0 a.length (i + 1) n acc3 (d2, d2, bs2) := by
        rw [flmRounds, hocc, hrowEq]
      rw [hstep]
      refine ih (i + 1) acc3 (d2, d2, bs2) (by omega)
        ⟨hacol3, ?_, ?_, d2, bs2, rfl, hdbs2, hdom2⟩
      · intro j
        rw [rowBound]
        exact harow3 j
      · intro i' hii'
        have : i' = i := by omega
        subst this
        exact hacc3i

/-- On identical sequences the backward extension drags a diagonal match to
the start of the range. -/
theorem flmExtendBack_diag (a : List String) :
    ∀ (d s : Nat), flmExtendBack a a 0 0 d d d s = (0, 0, s + d) := by
  intro d
  induction d with
  | zero => intro s; rw [flmExtendBack, Nat.add_zero]
  | succ m ih =>
    intro s
    rw [flmExtendBack, if_pos ⟨Nat.succ_pos m, Nat.succ_pos m, rfl⟩, Nat.succ_sub_one,
      ih (s + 1)]
    have : s + 1 + m = s + (m + 1) := by omega
    rw [this]

/-- On identical sequences the forward extension from the start of the range
grows the match to the whole range. -/
theorem flmExtendFwd_diag (a : List String) :
    ∀ (cnt s : Nat), s + cnt = a.length →
      flmExtendFwd a a a.length a.length 0 0 cnt s = a.length := by
  intro cnt
  induction cnt with
  | zero => intro s hs; rw [flmExtendFwd]; omega
  | succ n ih =>
    intro s hs
    rw [flmExtendFwd, if_pos ⟨by omega, by omega, rfl⟩]
    exact ih (s + 1) (by omega)

/-- Running `find_longest_match` over the full ranges of two identical sequences
returns the whole sequence as one match: the main loop's best is diagonal
and the two extension loops stretch it to the full range. -/
theorem flm_identity (a : List String) :
    findLongestMatch a a 0 a.length 0 a.length = (0, 0, a.length) := by
  obtain ⟨d, bs, hbest, hdbs⟩ := flmRounds_inv a a.length 0 (fun _ => 0) (0, 0, 0)
    (Nat.zero_add _)
    ⟨fun j => Nat.zero_le _, fun j => Nat.zero_le _,
      fun i' h => absurd h (by omega), 0, 0, rfl, by omega,
      fun i' h => absurd h (Nat.not_lt_zero i')⟩
  rw [findLongestMatch, Nat.sub_zero, hbest]
  dsimp only
  rw [flmExtendBack_diag a d bs]
  dsimp only
  rw [Nat.zero_add, flmExtendFwd_diag a (a.length - (bs + d)) (bs + d) (by omega)]

/-- On a non-empty identical pair the matching blocks are the whole sequence
followed by the sentinel. -/
theorem gmb_identity (a : List String) (hla : 0 < a.length) :
    getMatchingBlocks a a = [(0, 0, a.length), (a.length, a.length, 0)] := by
  have hF : (a.length + a.length + 2) * (a.length + a.length + 2) ≠ 0 :=
    Nat.mul_ne_zero (by omega) (by omega)
  obtain ⟨f, hf⟩ := Nat.exists_eq_succ_of_ne_zero hF
  rw [getMatchingBlocks, hf, gmbLoop, flm_identity]
  dsimp only
  rw [if_pos (by omega : a.length ≠ 0)]
  rw [if_neg (by omega : ¬(0 + a.length < a.length ∧ 0 + a.length < a.length))]
  rw [if_neg (by omega : ¬(0 < 0 ∧ 0 < 0))]
  dsimp only [List.nil_append]
  rw [show gmbLoop a a f [] [(0, 0, a.length)] = [(0, 0, a.length)] from by
    cases f <;> rfl]
  rw [show sortLex [(0, 0, a.length)] = [(0, 0, a.length)] from rfl]
  rw [mergeAdjacent, if_pos ⟨rfl, rfl⟩, mergeAdjacent, if_pos (by omega : 0 + a.length ≠ 0)]
  rw [Nat.zero_add]
  rfl

/-- On a non-empty identical pair the opcodes are one `equal` opcode. -/
theorem opcodes_identity (a : List String) (hla : 0 < a.length) :
    getOpcodes a a = [("equal", 0, a.length, 0, a.length)] := by
  rw [getOpcodes, gmb_identity a hla]
  simp [opcodesLoop, hla.ne']

/-- On a non-empty identical pair the zero-context grouping drops the lone
`equal` opcode, yielding no hunk groups. -/
theorem grouped_identity (a : List String) (hla : 0 < a.length) :
    groupedOpcodes a a 0 = [] := by
  rw [groupedOpcodes, opcodes_identity a hla]
  simp [groupSplit]

/-- An identical pair produces an empty unified diff. -/
theorem unifiedDiff_identity (a : List String) : unifiedDiff a a = [] := by
  rcases eq_or_ne a [] with rfl | hne
  · rfl
  · have hla : 0 < a.length := List.length_pos.mpr hne
    rw [unifiedDiff, grouped_identity a hla, if_pos rfl]

/-- Dropping an in-range index produces the indexed element followed by the
remaining drop. -/
theorem drop_eq_getD_cons (l : List String) :
    ∀ i, i < l.length → l.drop i = l.getD i "" :: l.drop (i + 1) := by
  induction l with
  | nil => intro i hi; simp at hi
  | cons x xs ih =>
    intro i hi
    cases i with
    | zero => simp [List.getD]
    | succ m =>
      have := ih m (by simpa using hi)
      simpa [List.getD] using this

/-- The trailing loop started at position `p` emits every remaining line as
Kept. -/
theorem tailLoop_from (new_lines : List String) :
    ∀ (cnt p : Nat) (acc : List String), p + cnt = new_lines.length →
      tailLoop new_lines cnt (p : Int) acc =
        .ok (acc ++ (new_lines.drop p).map (fun l => " " ++ l)) := by
  intro cnt
  induction cnt with
  | zero =>
    intro p acc hp
    rw [tailLoop, show new_lines.drop p = [] from List.drop_eq_nil_of_le (by omega)]
    simp
  | succ n ih =>
    intro p acc hp
    have hplen : p < new_lines.length := by omega
    rw [tailLoop, if_pos (by exact_mod_cast hplen)]
    rw [pyGet_ok new_lines (p : Int) (Int.ofNat_nonneg p) (by exact_mod_cast hplen)]
    dsimp only
    rw [show ((p : Int)).toNat = p from Int.toNat_ofNat p]
    rw [show (p : Int) + 1 = ((p + 1 : Nat) : Int) from by push_cast; ring]
    rw [ih (p + 1) _ (by omega)]
    rw [drop_eq_getD_cons new_lines p hplen]
    simp

/-- C6: element-wise equal old and new sequences produce a document that is
all Kept lines and reproduces the input in full. -/
theorem c6_identityAllKept (old_lines new_lines : List String)
    (h : old_lines = new_lines) :
    createInterleavedDiffLines old_lines new_lines =
      .ok (old_lines.map (fun l => " " ++ l)) := by
  subst h
  rcases eq_or_ne old_lines [] with rfl | hne
  · rfl
  · have hb1 : ¬(old_lines = [] ∧ old_lines ≠ []) := fun hc => hne hc.1
    have hb2 : ¬(old_lines ≠ [] ∧ old_lines = []) := fun hc => hne hc.2
    have hskel : createInterleavedDiffLines old_lines old_lines =
        interleaveHunks [] old_lines old_lines := by
      rw [createInterleavedDiffLines, if_neg hb1, if_neg hb2, unifiedDiff_identity]
      rfl
    rw [hskel]
    have hloop : interleaveHunks [] old_lines old_lines =
        tailLoop old_lines ((old_lines.length : Int) - 0).toNat 0 [] := rfl
    rw [hloop]
    have hcnt : ((old_lines.length : Int) - 0).toNat = old_lines.length := by simp
    rw [hcnt]
    have h0 : ((0 : Nat) : Int) = (0 : Int) := rfl
    rw [← h0, tailLoop_from old_lines old_lines.length 0 [] (by omega)]
    simp

/-- Closed witness for `c6_identityAllKept` at a two-line file. -/
theorem c6_identityAllKept_witness :
    createInterleavedDiffLines ["m", "n"] ["m", "n"] = .ok [" m", " n"] :=
  c6_identityAllKept ["m", "n"] ["m", "n"] rfl

end RepoDiff
